import Mathlib

set_option maxHeartbeats 1000000

/-!
Shallow embedding of `src/input_logic.py` (class `IngredientNormalizer`) of
the GroceryGuru repository, together with proofs about the normalization
and ranking engine it implements.

Modelling conventions:
* Python strings are modelled as lists of characters (`Str`).
* Python floats are modelled as rationals; every weight appearing in the
  source (`0.8`, `2.0`, `0.6`, `100.0`, the integer category priorities and
  cutoffs) is exactly representable, so the policy-level ordering and
  cutoff behaviour is captured faithfully.
* The external fuzzy-matching backend (`_FUZZ_SCORE` and `_EXTRACT`,
  selected at import time from rapidfuzz or thefuzz) is out of scope per
  the design document and is modelled as an explicit `Backend` record of
  two opaque-to-the-engine functions.
* `csv.reader` is modelled by handing `__init__` the already-parsed list
  of rows, each row a list of cell strings.
* Python's `list.sort(key=..., reverse=True)` is a stable descending
  sort; it is modelled by `List.insertionSort` with the reflexive
  descending-score relation `rankGE`, which places an element before the
  first existing element of less-or-equal score — exactly the stable
  descending order.
-/

abbrev Str := List Char

/-- Python whitespace class `\s` (ASCII part): space, tab, newline,
carriage return, vertical tab, form feed. -/
def pyIsWS (c : Char) : Bool :=
  c = ' ' || c = '\t' || c = '\n' || c = '\r' || c.toNat = 11 || c.toNat = 12

/-- Python `str.lower` (ASCII model), applied characterwise. -/
def pyToLower (s : Str) : Str := s.map Char.toLower

/-- Python `str.strip()`: drop leading and trailing whitespace. -/
def pyStrip (s : Str) : Str :=
  ((s.dropWhile pyIsWS).reverse.dropWhile pyIsWS).reverse

/-- Python regex class `\w` (ASCII model): alphanumerics and underscore. -/
def isWordChar (c : Char) : Bool := c.isAlphanum || c = '_'

/-- Characters kept by `re.sub(r"[^\w\s'-]", " ", text)`: word characters,
whitespace, the apostrophe (code 39) and the hyphen. -/
def keepChar (c : Char) : Bool :=
  isWordChar c || pyIsWS c || c.toNat = 39 || c = '-'

/-- First substitution of `_normalize_text` (src/input_logic.py:60):
replace every character outside the kept class by a single space. -/
def replacePunct (s : Str) : Str := s.map fun c => if keepChar c then c else ' '

/-- Second substitution of `_normalize_text` (src/input_logic.py:61),
`re.sub(r"\s+", " ", text)`: collapse every whitespace run to one space. -/
def collapseWS : Str → Str
  | [] => []
  | [c] => if pyIsWS c then [' '] else [c]
  | c :: d :: rest =>
    if pyIsWS c then
      if pyIsWS d then collapseWS (d :: rest) else ' ' :: collapseWS (d :: rest)
    else c :: collapseWS (d :: rest)

/-- `IngredientNormalizer._normalize_text` (src/input_logic.py:58-62):
lowercase, strip, replace punctuation, collapse whitespace — in that
order. -/
def normalize_text (s : Str) : Str :=
  collapseWS (replacePunct (pyStrip (pyToLower s)))

/-- Auxiliary splitter: the chunks of a string between characters
satisfying `p`, in order, including empty chunks (Python `re.split` on a
single-character class). -/
def pySplitAux (p : Char → Bool) : Str → Str → List Str
  | [], acc => [acc.reverse]
  | c :: rest, acc =>
    if p c then acc.reverse :: pySplitAux p rest [] else pySplitAux p rest (c :: acc)

/-- Split characters of `_tokens`: whitespace or hyphen (`[\s\-]+`). -/
def isSplitChar (c : Char) : Bool := pyIsWS c || c = '-'

/-- `IngredientNormalizer._tokens` (src/input_logic.py:64-65): split on
whitespace/hyphen runs and keep the non-empty pieces. -/
def tokens (s : Str) : List Str :=
  (pySplitAux isSplitChar s []).filter fun t => !t.isEmpty

/-- Category priority table of `IngredientNormalizer.__init__`
(src/input_logic.py:38-53), as a total function realizing the
`dict.get(..., 1)` default of `_category_score` for categories outside
the table.  The empty category is explicitly mapped to 1 in the source,
which coincides with the default. -/
def category_priority (c : Str) : ℚ :=
  if c = ['p','r','o','t','e','i','n'] then 10
  else if c = ['p','r','o','d','u','c','e'] then 9
  else if c = ['f','r','u','i','t'] then 9
  else if c = ['v','e','g','e','t','a','b','l','e'] then 9
  else if c = ['d','a','i','r','y'] then 8
  else if c = ['g','r','a','i','n'] then 7
  else if c = ['b','a','k','i','n','g'] then 6
  else if c = ['o','i','l'] then 5
  else if c = ['c','o','n','d','i','m','e','n','t'] then 3
  else if c = ['s','e','a','s','o','n','i','n','g'] then 4
  else if c = ['s','p','r','e','a','d'] then 4
  else if c = ['s','w','e','e','t','e','n','e','r'] then 4
  else if c = ['l','i','q','u','i','d'] then 4
  else 1

/-- Modifier token set of `IngredientNormalizer.__init__`
(src/input_logic.py:56). -/
def modifier_tokens : List Str :=
  [ ['s','a','u','c','e'], ['p','a','s','t','e'], ['s','a','l','t'],
    ['s','u','g','a','r'], ['o','i','l'], ['d','r','e','s','s','i','n','g'],
    ['p','o','w','d','e','r'], ['e','x','t','r','a','c','t'], ['m','i','x'] ]

/-- State of an `IngredientNormalizer` instance after `__init__`: the
ingredient list and the name-to-category dictionary, the latter modelled
by its lookup function. -/
structure IngredientNormalizer where
  standard_ingredients : List Str
  ingredient_to_category : Str → Option Str

/-- External fuzzy backend of §6 of the design document: the similarity
primitive `_FUZZ_SCORE` and the top-N extraction `_EXTRACT` (query,
collection, limit). -/
structure Backend where
  fz : Str → Str → ℚ
  ext : Str → List Str → ℕ → List (Str × ℚ)

/-- Contract of the extraction primitive: every returned candidate name
is drawn from the supplied collection. -/
def ExtractContract (B : Backend) : Prop :=
  ∀ q choices n p, p ∈ B.ext q choices n → p.1 ∈ choices

/-- `IngredientNormalizer._category_score` (src/input_logic.py:67-68):
`self.category_priority.get(self.ingredient_to_category.get(ingredient, ""), 1)`. -/
def IngredientNormalizer.category_score (nz : IngredientNormalizer) (ing : Str) : ℚ :=
  category_priority ((nz.ingredient_to_category ing).getD [])

/-- `IngredientNormalizer._head_token_candidates` (src/input_logic.py:70-78):
the standard ingredients one of whose tokens equals the given token. -/
def IngredientNormalizer.head_token_candidates (nz : IngredientNormalizer) (token : Str) : List Str :=
  nz.standard_ingredients.filter fun ing => decide (pyToLower token ∈ tokens ing)

/-- Modifier-penalty test of `_rank_candidates` (src/input_logic.py:88-89):
the candidate's token set meets the modifier set and contains nothing
outside it. -/
def modifierPenalty (ing : Str) : Bool :=
  ((tokens ing).any fun t => decide (t ∈ modifier_tokens)) &&
  ((tokens ing).all fun t => decide (t ∈ modifier_tokens))

/-- Scoring step of `_rank_candidates` (src/input_logic.py:83-91):
`combined = fuzz_score * 0.8 + category_score * 2.0`, multiplied by `0.6`
under the modifier penalty. -/
def scoreEntry (nz : IngredientNormalizer) (p : Str × ℚ) : Str × ℚ :=
  if modifierPenalty p.1 then (p.1, (p.2 * 0.8 + nz.category_score p.1 * 2.0) * 0.6)
  else (p.1, p.2 * 0.8 + nz.category_score p.1 * 2.0)

/-- Descending order on combined scores used by
`ranked.sort(key=lambda x: x[1], reverse=True)`. -/
def rankGE (a b : Str × ℚ) : Prop := b.2 ≤ a.2

instance : DecidableRel rankGE := fun a b => inferInstanceAs (Decidable (b.2 ≤ a.2))

instance : IsTotal (Str × ℚ) rankGE := ⟨fun a b => le_total b.2 a.2⟩

instance : IsTrans (Str × ℚ) rankGE := ⟨fun _ _ _ h h2 => le_trans h2 h⟩

/-- `IngredientNormalizer._rank_candidates` (src/input_logic.py:80-93):
score every candidate in input order, then sort descending by combined
score; Python's stable sort is modelled by stable insertion sort. -/
def IngredientNormalizer.rank_candidates (nz : IngredientNormalizer)
    (cands : List (Str × ℚ)) : List (Str × ℚ) :=
  List.insertionSort rankGE (cands.map (scoreEntry nz))

/-- Primary-token choice of tier 2 (src/input_logic.py:111):
`max(tokens, key=len)`; Python `max` keeps the first of the longest. -/
def argmaxLen : List Str → Str
  | [] => []
  | [t] => t
  | t :: u :: rest => if (argmaxLen (u :: rest)).length > t.length then argmaxLen (u :: rest) else t

/-- Ranked candidate list of tier 2 (src/input_logic.py:108-119): head
token candidates of the primary token, fuzzy-scored against the full
canonical text and ranked.  Empty when there are no tokens or no head
candidates, in which case the engine falls through. -/
def IngredientNormalizer.tier2Ranked (nz : IngredientNormalizer) (B : Backend)
    (text : Str) : List (Str × ℚ) :=
  match tokens text with
  | [] => []
  | t :: ts =>
    let primary := if ts.isEmpty then t else argmaxLen (t :: ts)
    nz.rank_candidates ((nz.head_token_candidates primary).map fun c => (c, B.fz text c))

/-- Tier-2 result list (src/input_logic.py:120-121): truncate the ranked
list to `top_k` first, then filter by the adjusted cutoff
`s - category_score*2.0 >= score_cutoff*0.6`. -/
def IngredientNormalizer.tier2Results (nz : IngredientNormalizer) (B : Backend)
    (text : Str) (top_k : ℕ) (score_cutoff : ℚ) : List (Str × ℚ) :=
  ((nz.tier2Ranked B text).take top_k).filter fun p =>
    decide (p.2 - nz.category_score p.1 * 2.0 ≥ score_cutoff * 0.6)

/-- Ranked candidate list of tier 3 (src/input_logic.py:127-136): rank
the pairs returned by the extraction primitive. -/
def IngredientNormalizer.tier3Ranked (nz : IngredientNormalizer) (B : Backend)
    (text : Str) (top_k : ℕ) : List (Str × ℚ) :=
  nz.rank_candidates (B.ext text nz.standard_ingredients top_k)

/-- Tier 3, fuzzy fallback (src/input_logic.py:125-142): filter the
ranked list by the unadjusted cutoff; if nothing passes but the ranked
list is non-empty, return its first `min(|ranked|, top_k)` entries. -/
def IngredientNormalizer.tier3 (nz : IngredientNormalizer) (B : Backend)
    (text : Str) (top_k : ℕ) (score_cutoff : ℚ) : List (Str × ℚ) :=
  let ranked := nz.tier3Ranked B text top_k
  let filtered := ranked.filter fun p =>
    decide (p.2 - nz.category_score p.1 * 2.0 ≥ score_cutoff)
  if filtered.isEmpty && !ranked.isEmpty then ranked.take (min ranked.length top_k)
  else filtered

/-- `IngredientNormalizer.normalize_ingredient` (src/input_logic.py:95-142):
canonicalize, then try exact match, token-head match and fuzzy fallback
in order. -/
def IngredientNormalizer.normalize_ingredient (nz : IngredientNormalizer) (B : Backend)
    (input_text : Str) (top_k : ℕ) (score_cutoff : ℚ) : List (Str × ℚ) :=
  let text := normalize_text input_text
  if text ∈ nz.standard_ingredients then [(text, 100.0)]
  else
    let results := nz.tier2Results B text top_k score_cutoff
    if results.isEmpty then nz.tier3 B text top_k score_cutoff else results

/-- `IngredientNormalizer.best_match` (src/input_logic.py:144-149):
`normalize_ingredient` with `top_k=5` and the default cutoff 60; the
first suggestion's name, if any. -/
def IngredientNormalizer.best_match (nz : IngredientNormalizer) (B : Backend)
    (input_text : Str) : Option Str :=
  match nz.normalize_ingredient B input_text 5 60 with
  | [] => none
  | p :: _ => some p.1

/-- Row processing of `__init__` (src/input_logic.py:28-35): the usable
(name, category) pair of a parsed CSV row, if any.  Blank rows and rows
whose stripped first cell is empty are skipped; a missing second cell
defaults to the empty category. -/
def loadedRow (row : List Str) : Option (Str × Str) :=
  match row with
  | [] => none
  | n :: rest =>
    let name := pyToLower (pyStrip n)
    if name.isEmpty then none
    else some (name, match rest with | [] => [] | c :: _ => pyToLower (pyStrip c))

/-- Pointwise dictionary update, `self.ingredient_to_category[name] = category`. -/
def updateMap (m : Str → Option Str) (k v : Str) : Str → Option Str :=
  fun x => if x = k then some v else m x

/-- One loop iteration of `__init__` (src/input_logic.py:28-35): append
the name and set its category. -/
def initStep (st : IngredientNormalizer) (row : List Str) : IngredientNormalizer :=
  match loadedRow row with
  | none => st
  | some (name, category) =>
    { standard_ingredients := st.standard_ingredients ++ [name],
      ingredient_to_category := updateMap st.ingredient_to_category name category }

/-- `IngredientNormalizer.__init__` (src/input_logic.py:21-35), over an
already-parsed row list (reading the CSV file is an external concern per
§6 of the design document). -/
def IngredientNormalizer.init (rows : List (List Str)) : IngredientNormalizer :=
  rows.foldl initStep ⟨[], fun _ => none⟩

/-- Category of the last usable row carrying the given name, if any: the
specification of Python's last-wins dictionary overwrite. -/
def rowCat (row : List Str) (name : Str) : Option Str :=
  match loadedRow row with
  | none => none
  | some (n, c) => if n = name then some c else none

/-- Later rows win: recursive specification of the category a name ends
up with after loading. -/
def lastCategoryIn : List (List Str) → Str → Option Str
  | [], _ => none
  | row :: rest, name => (lastCategoryIn rest name).or (rowCat row name)

def strFish : Str := ['f','i','s','h']

def strFishCake : Str := ['f','i','s','h',' ','c','a','k','e']

def strFishPie : Str := ['f','i','s','h',' ','p','i','e']

def strProtein : Str := ['p','r','o','t','e','i','n']

def strTomato : Str := ['t','o','m','a','t','o']

/-- Engine built from a two-row source: "fish cake" (protein) and
"fish pie" (no category). -/
def nzFish : IngredientNormalizer :=
  IngredientNormalizer.init [[strFishCake, strProtein], [strFishPie]]

/-- Engine built from the one-row source "tomato" (no category). -/
def nzTomato : IngredientNormalizer :=
  IngredientNormalizer.init [[strTomato]]

/-- Backend whose similarity gives "fish cake" 40 and everything else 60;
its extraction returns nothing. -/
def BFish : Backend :=
  ⟨fun _ c => if c = strFishCake then 40 else 60, fun _ _ _ => []⟩

/-- Backend whose similarity gives "fish cake" 40 and everything else 90;
its extraction returns nothing. -/
def BFish2 : Backend :=
  ⟨fun _ c => if c = strFishCake then 40 else 90, fun _ _ _ => []⟩

/-- Backend modelling the bundled libraries' documented behaviour on a
query with no token overlap (for instance the empty string): every
candidate scores 0, and the extraction — called without a score cutoff —
still returns the first `limit` candidates of the collection, each with
score 0. -/
def Bzero : Backend :=
  ⟨fun _ _ => 0, fun _ choices n => (choices.take n).map fun c => (c, 0)⟩

/-- Backend whose extraction returns nothing at all. -/
def Bnil : Backend := ⟨fun _ _ => 0, fun _ _ _ => []⟩

/-- A vocabulary source with no usable rows: a blank row and a row whose
name cell strips to the empty string. -/
def rowsEmpty : List (List Str) := [[], [[' '], ['x']]]

/-- A vocabulary source containing the same canonical name twice with
different categories. -/
def rowsDup : List (List Str) := [[['a'], ['x']], [['a'], ['y']]]

/-! ### Helper lemmas about the stable descending sort -/

/-- Inserting an element whose score differs from `c` does not change the
score-`c` subsequence. -/
theorem filter_score_orderedInsert_ne {c : ℚ} {x : Str × ℚ} (hx : ¬ x.2 = c) :
    ∀ L : List (Str × ℚ),
      (List.orderedInsert rankGE x L).filter (fun p => decide (p.2 = c)) =
        L.filter (fun p => decide (p.2 = c)) := by
  intro L
  induction L with
  | nil => simp [List.orderedInsert, hx]
  | cons b L ih =>
    rw [List.orderedInsert]
    by_cases h : rankGE x b
    · rw [if_pos h]
      simp [List.filter_cons, hx]
    · rw [if_neg h]
      simp only [List.filter_cons, ih]

/-- Inserting an element of score `c` puts it in front of the score-`c`
subsequence: the elements it walks past all have strictly larger scores. -/
theorem filter_score_orderedInsert_eq {c : ℚ} {x : Str × ℚ} (hx : x.2 = c) :
    ∀ L : List (Str × ℚ),
      (List.orderedInsert rankGE x L).filter (fun p => decide (p.2 = c)) =
        x :: L.filter (fun p => decide (p.2 = c)) := by
  intro L
  induction L with
  | nil => simp [List.orderedInsert, hx]
  | cons b L ih =>
    rw [List.orderedInsert]
    by_cases h : rankGE x b
    · rw [if_pos h]
      simp [List.filter_cons, hx]
    · rw [if_neg h]
      have hb : ¬ b.2 = c := by
        intro hbc
        exact h (by rw [rankGE, hbc, hx])
      simp only [List.filter_cons, ih]
      simp [hb]

/-- Stability of the modelled Python sort: for every score value, the
subsequence of entries carrying exactly that score is unchanged by the
descending sort. -/
theorem filter_score_insertionSort (c : ℚ) :
    ∀ l : List (Str × ℚ),
      (List.insertionSort rankGE l).filter (fun p => decide (p.2 = c)) =
        l.filter (fun p => decide (p.2 = c)) := by
  intro l
  induction l with
  | nil => rfl
  | cons a l ih =>
    rw [List.insertionSort]
    by_cases ha : a.2 = c
    · rw [filter_score_orderedInsert_eq ha, ih, List.filter_cons, if_pos (by simp [ha])]
    · rw [filter_score_orderedInsert_ne ha, ih, List.filter_cons, if_neg (by simp [ha])]

/-! ### Helper lemmas about the canonicalizer -/

theorem collapseWS_cons_of_not_ws {d : Char} (hd : ¬ pyIsWS d = true) :
    ∀ rest : Str, collapseWS (d :: rest) = d :: collapseWS rest
  | [] => by simp [collapseWS, hd]
  | e :: r => by simp [collapseWS, hd]

theorem mem_collapseWS :
    ∀ (l : Str) (c : Char), c ∈ collapseWS l → c = ' ' ∨ (c ∈ l ∧ ¬ pyIsWS c = true) := by
  intro l
  induction l with
  | nil =>
    intro c h
    simp [collapseWS] at h
  | cons a tl ih =>
    intro c h
    cases tl with
    | nil =>
      by_cases ha : pyIsWS a = true
      · simp [collapseWS, ha] at h
        exact Or.inl h
      · simp [collapseWS, ha] at h
        refine Or.inr ⟨?_, ?_⟩
        · rw [h]
          exact List.mem_singleton_self a
        · rw [h]
          exact ha
    | cons d r =>
      rw [collapseWS] at h
      by_cases ha : pyIsWS a = true
      · rw [if_pos ha] at h
        by_cases hd : pyIsWS d = true
        · rw [if_pos hd] at h
          rcases ih c h with h1 | ⟨h2, h3⟩
          · exact Or.inl h1
          · exact Or.inr ⟨List.mem_cons_of_mem a h2, h3⟩
        · rw [if_neg hd] at h
          rcases List.mem_cons.mp h with rfl | h'
          · exact Or.inl rfl
          · rcases ih c h' with h1 | ⟨h2, h3⟩
            · exact Or.inl h1
            · exact Or.inr ⟨List.mem_cons_of_mem a h2, h3⟩
      · rw [if_neg ha] at h
        rcases List.mem_cons.mp h with rfl | h'
        · exact Or.inr ⟨List.mem_cons_self c (d :: r), ha⟩
        · rcases ih c h' with h1 | ⟨h2, h3⟩
          · exact Or.inl h1
          · exact Or.inr ⟨List.mem_cons_of_mem a h2, h3⟩

theorem chain'_collapseWS :
    ∀ l : Str, List.Chain' (fun a b => ¬(pyIsWS a = true ∧ pyIsWS b = true)) (collapseWS l) := by
  intro l
  induction l with
  | nil => simp [collapseWS]
  | cons a tl ih =>
    cases tl with
    | nil =>
      by_cases ha : pyIsWS a = true <;> simp [collapseWS, ha]
    | cons d r =>
      rw [collapseWS]
      by_cases ha : pyIsWS a = true
      · rw [if_pos ha]
        by_cases hd : pyIsWS d = true
        · rw [if_pos hd]
          exact ih
        · rw [if_neg hd]
          rw [collapseWS_cons_of_not_ws hd] at ih ⊢
          exact List.Chain'.cons (by simp [hd]) ih
      · rw [if_neg ha]
        apply List.chain'_cons'.mpr
        refine ⟨?_, ih⟩
        intro b _
        simp [ha]

theorem mem_pyStrip {c : Char} {s : Str} (h : c ∈ pyStrip s) : c ∈ s := by
  rw [pyStrip] at h
  rw [List.mem_reverse] at h
  have h2 := (List.dropWhile_sublist (l := (s.dropWhile pyIsWS).reverse) pyIsWS).mem h
  rw [List.mem_reverse] at h2
  exact (List.dropWhile_sublist pyIsWS).mem h2

theorem keepChar_of_mem_replacePunct {c : Char} {s : Str} (h : c ∈ replacePunct s) :
    keepChar c = true := by
  rw [replacePunct] at h
  rcases List.mem_map.mp h with ⟨a, _, ha⟩
  by_cases hk : keepChar a = true
  · rw [if_pos hk] at ha
    rw [← ha]
    exact hk
  · rw [if_neg hk] at ha
    rw [← ha]
    decide

theorem mem_or_space_of_mem_replacePunct {c : Char} {s : Str} (h : c ∈ replacePunct s) :
    c = ' ' ∨ c ∈ s := by
  rw [replacePunct] at h
  rcases List.mem_map.mp h with ⟨a, hm, ha⟩
  by_cases hk : keepChar a = true
  · rw [if_pos hk] at ha
    exact Or.inr (ha ▸ hm)
  · rw [if_neg hk] at ha
    exact Or.inl ha.symm

/-! ### Helper lemmas about ASCII lowercasing -/

theorem char_toNat_ofNat {n : ℕ} (h : n.isValidChar) : (Char.ofNat n).toNat = n := by
  rw [Char.ofNat, dif_pos h]
  rfl

theorem toLower_not_upper (c : Char) :
    ¬(65 ≤ (Char.toLower c).toNat ∧ (Char.toLower c).toNat ≤ 90) := by
  rw [Char.toLower]
  by_cases h : c.toNat ≥ 65 ∧ c.toNat ≤ 90
  · rw [if_pos h]
    have hv : (c.toNat + 32).isValidChar := Or.inl (by omega)
    rw [char_toNat_ofNat hv]
    omega
  · rw [if_neg h]
    omega

theorem toLower_toLower (c : Char) :
    Char.toLower (Char.toLower c) = Char.toLower c := by
  have h := toLower_not_upper c
  conv_lhs => rw [Char.toLower]
  rw [if_neg (by exact_mod_cast h)]

/-! ### General bridging lemmas -/

/-- The modifier-penalty test of the source is equivalent to: the token
list is non-empty and every token is a modifier token. -/
theorem modifierPenalty_iff (ing : Str) :
    modifierPenalty ing = true ↔
      (tokens ing ≠ [] ∧ ∀ t ∈ tokens ing, t ∈ modifier_tokens) := by
  rw [modifierPenalty]
  simp only [Bool.and_eq_true, List.any_eq_true, List.all_eq_true, decide_eq_true_eq]
  constructor
  · rintro ⟨⟨t, ht, _⟩, hall⟩
    exact ⟨List.ne_nil_of_mem ht, hall⟩
  · rintro ⟨hne, hall⟩
    rcases List.exists_mem_of_ne_nil _ hne with ⟨t, ht⟩
    exact ⟨⟨t, ht, hall t ht⟩, hall⟩

/-- Scoring keeps the candidate's name. -/
theorem fst_scoreEntry (nz : IngredientNormalizer) (p : Str × ℚ) :
    (scoreEntry nz p).1 = p.1 := by
  rw [scoreEntry]
  split <;> rfl

/-- Every ranked entry descends from an input candidate with the same name. -/
theorem exists_cand_of_mem_rank {nz : IngredientNormalizer} {cands : List (Str × ℚ)}
    {x : Str × ℚ} (hx : x ∈ nz.rank_candidates cands) : ∃ p ∈ cands, p.1 = x.1 := by
  rw [IngredientNormalizer.rank_candidates,
    (List.perm_insertionSort rankGE (cands.map (scoreEntry nz))).mem_iff] at hx
  rcases List.mem_map.mp hx with ⟨p, hp, hps⟩
  exact ⟨p, hp, by rw [← hps, fst_scoreEntry]⟩

/-- Every ranked entry is the scoring of some input candidate. -/
theorem exists_scoreEntry_of_mem_rank {nz : IngredientNormalizer} {cands : List (Str × ℚ)}
    {x : Str × ℚ} (hx : x ∈ nz.rank_candidates cands) :
    ∃ p ∈ cands, scoreEntry nz p = x := by
  rw [IngredientNormalizer.rank_candidates,
    (List.perm_insertionSort rankGE (cands.map (scoreEntry nz))).mem_iff] at hx
  rcases List.mem_map.mp hx with ⟨p, hp, hps⟩
  exact ⟨p, hp, hps⟩

/-- Under the extraction contract, extracting from an empty collection
yields nothing. -/
theorem ext_nil_of_contract {B : Backend} (hB : ExtractContract B) (q : Str) (n : ℕ) :
    B.ext q [] n = [] := by
  cases h : B.ext q [] n with
  | nil => rfl
  | cons p t => exact absurd (hB q [] n p (h ▸ List.mem_cons_self p t)) (List.not_mem_nil p.1)

theorem Bnil_contract : ExtractContract Bnil := by
  intro q choices n p hp
  exact absurd hp (List.not_mem_nil p)

theorem Bzero_contract : ExtractContract Bzero := by
  intro q choices n p hp
  rcases List.mem_map.mp hp with ⟨c, hc, rfl⟩
  exact List.mem_of_mem_take hc

/-- Rows with no usable content leave the constructor state unchanged. -/
theorem foldl_initStep_all_none :
    ∀ (rows : List (List Str)), (∀ row ∈ rows, loadedRow row = none) →
      ∀ st : IngredientNormalizer, rows.foldl initStep st = st := by
  intro rows
  induction rows with
  | nil => intro _ st; rfl
  | cons row rs ih =>
    intro h st
    rw [List.foldl_cons]
    have hrow : initStep st row = st := by
      rw [initStep, h row (List.mem_cons_self row rs)]
    rw [hrow]
    exact ih (fun r hr => h r (List.mem_cons_of_mem row hr)) st

/-- The ingredient list after loading is the usable rows' names, one per
occurrence, in order. -/
theorem foldl_initStep_ingredients :
    ∀ (rows : List (List Str)) (st : IngredientNormalizer),
      (rows.foldl initStep st).standard_ingredients =
        st.standard_ingredients ++ (rows.filterMap loadedRow).map Prod.fst := by
  intro rows
  induction rows with
  | nil => intro st; simp
  | cons row rs ih =>
    intro st
    rw [List.foldl_cons, ih, List.filterMap_cons]
    cases h : loadedRow row with
    | none => rw [initStep, h]
    | some nc =>
      rw [initStep, h, List.map_cons]
      simp [List.append_assoc]

/-- The category lookup after loading follows the last usable row of the
name (Python dictionary overwrite). -/
theorem foldl_initStep_category :
    ∀ (rows : List (List Str)) (st : IngredientNormalizer) (name : Str),
      (rows.foldl initStep st).ingredient_to_category name =
        (lastCategoryIn rows name).or (st.ingredient_to_category name) := by
  intro rows
  induction rows with
  | nil => intro st name; rfl
  | cons row rs ih =>
    intro st name
    rw [List.foldl_cons, ih, lastCategoryIn, Option.or_assoc]
    congr 1
    rw [rowCat, initStep]
    cases h : loadedRow row with
    | none => rfl
    | some nc =>
      show updateMap st.ingredient_to_category nc.1 nc.2 name =
        (if nc.1 = name then some nc.2 else none).or (st.ingredient_to_category name)
      rw [updateMap]
      by_cases he : name = nc.1
      · rw [if_pos he, if_pos he.symm]
        rfl
      · rw [if_neg he, if_neg (fun hh => he hh.symm)]
        rfl

/-! ### Claim theorems -/

/-- C4: for every list of (name, rawScore) candidate pairs, the
Scorer/Ranker assigns each entry `rawScore*0.8 + categoryPriority*2.0`,
multiplied by 0.6 exactly when the entry's token set is non-empty and
consists only of modifier tokens; it returns the entries sorted
descending by combined score, ties preserving input order (stable sort,
expressed by the per-score filter equation); empty input yields empty
output. -/
theorem C4_scorer_ranker (nz : IngredientNormalizer) (cands : List (Str × ℚ)) :
    nz.rank_candidates [] = [] ∧
    List.Pairwise rankGE (nz.rank_candidates cands) ∧
    (∀ c : ℚ, (nz.rank_candidates cands).filter (fun p => decide (p.2 = c)) =
        (cands.map (scoreEntry nz)).filter (fun p => decide (p.2 = c))) ∧
    (∀ p : Str × ℚ, scoreEntry nz p =
        if tokens p.1 ≠ [] ∧ ∀ t ∈ tokens p.1, t ∈ modifier_tokens
        then (p.1, (p.2 * 0.8 + nz.category_score p.1 * 2.0) * 0.6)
        else (p.1, p.2 * 0.8 + nz.category_score p.1 * 2.0)) := by
  refine ⟨rfl, ?_, ?_, ?_⟩
  · exact List.sorted_insertionSort rankGE (cands.map (scoreEntry nz))
  · intro c
    exact filter_score_insertionSort c (cands.map (scoreEntry nz))
  · intro p
    by_cases hcond : tokens p.1 ≠ [] ∧ ∀ t ∈ tokens p.1, t ∈ modifier_tokens
    · rw [if_pos hcond, scoreEntry, if_pos ((modifierPenalty_iff p.1).mpr hcond)]
    · rw [if_neg hcond, scoreEntry,
        if_neg (fun hmp => hcond ((modifierPenalty_iff p.1).mp hmp))]

/-- C5 (amended): the canonicalizer lowercases, replaces every character
outside the kept class by a space and collapses whitespace runs to a
single space; the empty string is a valid output.  However, since the
source strips whitespace *before* the punctuation substitution, the
canonical form may begin or end with a single space (see the
counterexample); the claim's "never begins or ends with whitespace" is
the only part that fails. -/
theorem C5_canonicalizer_contract (s : Str) :
    pyToLower (normalize_text s) = normalize_text s ∧
    (∀ c ∈ normalize_text s, isWordChar c = true ∨ c = ' ' ∨ c.toNat = 39 ∨ c = '-') ∧
    List.Chain' (fun a b => ¬(pyIsWS a = true ∧ pyIsWS b = true)) (normalize_text s) ∧
    normalize_text [] = [] := by
  refine ⟨?_, ?_, chain'_collapseWS _, rfl⟩
  · have key : ∀ c ∈ normalize_text s, Char.toLower c = c := by
      intro c hc
      rcases mem_collapseWS _ c hc with rfl | ⟨h2, _⟩
      · decide
      rcases mem_or_space_of_mem_replacePunct h2 with rfl | h3
      · decide
      rcases List.mem_map.mp (mem_pyStrip h3) with ⟨a, _, ha⟩
      rw [← ha]
      exact toLower_toLower a
    rw [pyToLower]
    have h2 : (normalize_text s).map Char.toLower = (normalize_text s).map id :=
      List.map_congr_left key
    rw [h2, List.map_id]
  · intro c hc
    rcases mem_collapseWS _ c hc with rfl | ⟨h2, hws⟩
    · exact Or.inr (Or.inl rfl)
    have hk := keepChar_of_mem_replacePunct h2
    rw [keepChar] at hk
    simp only [Bool.or_eq_true, decide_eq_true_eq] at hk
    rcases hk with ((h | h) | h) | h
    · exact Or.inl h
    · exact absurd h hws
    · exact Or.inr (Or.inr (Or.inl h))
    · exact Or.inr (Or.inr (Or.inr h))

/-- C5 counterexample: the all-punctuation input "!a!" canonicalizes to
" a " which begins (and ends) with a whitespace character, refuting the
claim that the canonical form never begins or ends with whitespace. -/
theorem C5_counterexample :
    normalize_text ['!', 'a', '!'] = [' ', 'a', ' '] ∧ pyIsWS ' ' = true := by decide

/-- C2: for every vocabulary entry whose name is a canonical-form string
(a fixed point of the canonicalizer, as the data model requires),
`normalize` with the default parameters returns exactly that entry with
the sentinel score 100.0; the result does not depend on the backend, so
no later tier runs. -/
theorem C2_exact_match_idempotence (nz : IngredientNormalizer) (B : Backend) (e : Str)
    (he : e ∈ nz.standard_ingredients) (hfix : normalize_text e = e) :
    nz.normalize_ingredient B e 3 60 = [(e, 100.0)] := by
  simp only [IngredientNormalizer.normalize_ingredient]
  rw [hfix, if_pos he]

/-- C2 witness: the vocabulary entry "fish cake" of the concrete engine. -/
theorem C2_witness :
    nzFish.normalize_ingredient Bnil strFishCake 3 60 = [(strFishCake, 100.0)] :=
  C2_exact_match_idempotence nzFish Bnil strFishCake (by decide) (by decide)

/-- Combined score of a scored candidate, unfolded. -/
theorem snd_scoreEntry (nz : IngredientNormalizer) (ing : Str) (raw : ℚ) :
    (scoreEntry nz (ing, raw)).2 =
      if modifierPenalty ing = true
      then (raw * 0.8 + nz.category_score ing * 2.0) * 0.6
      else raw * 0.8 + nz.category_score ing * 2.0 := by
  rw [scoreEntry]
  by_cases hm : modifierPenalty ing = true
  · rw [if_pos hm, if_pos hm]
  · rw [if_neg hm, if_neg hm]

/-- C9: given two candidates with the same raw similarity score and the
same modifier-penalty status, each occurring with that score only, the
one whose category priority is strictly higher appears strictly earlier
in the Scorer/Ranker's output (it never ranks below the other). -/
theorem C9_monotone_category_boost (nz : IngredientNormalizer) (cands : List (Str × ℚ))
    (ing1 ing2 : Str) (raw : ℚ) (k l : ℕ) (s t : ℚ)
    (h1 : ∀ p ∈ cands, p.1 = ing1 → p.2 = raw)
    (h2 : ∀ p ∈ cands, p.1 = ing2 → p.2 = raw)
    (hpen : modifierPenalty ing1 = modifierPenalty ing2)
    (hcat : nz.category_score ing2 < nz.category_score ing1)
    (hk : (nz.rank_candidates cands).get? k = some (ing1, s))
    (hl : (nz.rank_candidates cands).get? l = some (ing2, t)) :
    k < l := by
  rcases List.get?_eq_some.mp hk with ⟨hklen, hkget⟩
  rcases List.get?_eq_some.mp hl with ⟨hllen, hlget⟩
  have score_of : ∀ (ing : Str) (j : Fin (nz.rank_candidates cands).length) (v : ℚ),
      (∀ p ∈ cands, p.1 = ing → p.2 = raw) →
      (nz.rank_candidates cands).get j = (ing, v) → v = (scoreEntry nz (ing, raw)).2 := by
    intro ing j v hu hj
    have hmem : (ing, v) ∈ nz.rank_candidates cands := by
      rw [← hj]
      exact List.get_mem _ j.1 j.2
    obtain ⟨p, hp, hps⟩ := exists_scoreEntry_of_mem_rank hmem
    obtain ⟨pn, pv⟩ := p
    have hfst := fst_scoreEntry nz (pn, pv)
    rw [hps] at hfst
    have hp1 : pn = ing := hfst.symm
    have hp2 : pv = raw := hu (pn, pv) hp hp1
    rw [hp1, hp2] at hps
    rw [hps]
  have hs : s = (scoreEntry nz (ing1, raw)).2 := score_of ing1 ⟨k, hklen⟩ s h1 hkget
  have ht : t = (scoreEntry nz (ing2, raw)).2 := score_of ing2 ⟨l, hllen⟩ t h2 hlget
  have hts : t < s := by
    rw [hs, ht, snd_scoreEntry, snd_scoreEntry]
    by_cases hm : modifierPenalty ing2 = true
    · rw [if_pos hm, if_pos (hpen.trans hm)]
      have hlt : raw * 0.8 + nz.category_score ing2 * 2.0 <
          raw * 0.8 + nz.category_score ing1 * 2.0 := by linarith
      exact mul_lt_mul_of_pos_right hlt (by norm_num)
    · rw [if_neg hm, if_neg (fun hh => hm (hpen.symm.trans hh))]
      linarith
  have hsorted : List.Pairwise rankGE (nz.rank_candidates cands) :=
    List.sorted_insertionSort rankGE _
  by_contra hkl
  push_neg at hkl
  rcases lt_or_eq_of_le hkl with hlt | heq
  · have hrel := List.pairwise_iff_get.mp hsorted ⟨l, hllen⟩ ⟨k, hklen⟩ hlt
    rw [hlget, hkget] at hrel
    have hst : s ≤ t := hrel
    linarith
  · have hfin : (⟨l, hllen⟩ : Fin (nz.rank_candidates cands).length) = ⟨k, hklen⟩ :=
      Fin.ext heq
    rw [hfin, hkget] at hlget
    have hing : ing1 = ing2 := (Prod.ext_iff.mp hlget).1
    rw [hing] at hcat
    exact lt_irrefl _ hcat

/-- C9 witness: in the concrete engine, "fish cake" (protein, priority
10) with raw score 40 ranks strictly before "fish pie" (priority 1) with
the same raw score. -/
theorem C9_witness :
    nzFish.category_score strFishPie < nzFish.category_score strFishCake ∧ (0 : ℕ) < 1 := by
  have haux : nzFish.rank_candidates [(strFishPie, 40), (strFishCake, 40)] =
      [(strFishCake, 52), (strFishPie, 34)] := by
    norm_num +decide [IngredientNormalizer.rank_candidates, scoreEntry, modifierPenalty,
      List.insertionSort, List.orderedInsert, rankGE, tokens, pySplitAux, isSplitChar,
      pyIsWS, strFishCake, strFishPie, nzFish, IngredientNormalizer.init, initStep,
      loadedRow, updateMap, pyToLower, pyStrip, IngredientNormalizer.category_score,
      category_priority, modifier_tokens, strProtein]
  refine ⟨by decide, ?_⟩
  exact C9_monotone_category_boost nzFish [(strFishPie, 40), (strFishCake, 40)]
    strFishCake strFishPie 40 0 1 52 34
    (by decide) (by decide) (by decide) (by decide)
    (by rw [haux]; rfl) (by rw [haux]; rfl)

/-- C1 (amended): in tier 2 the engine truncates the ranked list to its
top `top_k` entries first and only then applies the adjusted cutoff
`combined - categoryPriority*2.0 ≥ scoreCutoff*0.6`; when at least one of
the truncated entries passes, it returns exactly the passing ones — at
most `top_k` of them, and possibly fewer than `top_k` even when `top_k`
or more ranked entries pass the adjusted cutoff overall, because
lower-ranked passing entries are discarded by the truncation. -/
theorem C1_tier2_adjusted_cutoff (nz : IngredientNormalizer) (B : Backend) (input : Str)
    (top_k : ℕ) (cutoff : ℚ)
    (hnex : normalize_text input ∉ nz.standard_ingredients)
    (hpass : ∃ p ∈ (nz.tier2Ranked B (normalize_text input)).take top_k,
        p.2 - nz.category_score p.1 * 2.0 ≥ cutoff * 0.6) :
    nz.normalize_ingredient B input top_k cutoff =
      ((nz.tier2Ranked B (normalize_text input)).take top_k).filter (fun p =>
        decide (p.2 - nz.category_score p.1 * 2.0 ≥ cutoff * 0.6)) ∧
    (nz.normalize_ingredient B input top_k cutoff).length ≤ top_k := by
  have hne : ¬ (nz.tier2Results B (normalize_text input) top_k cutoff).isEmpty = true := by
    rcases hpass with ⟨p, hp, hps⟩
    have hmem : p ∈ nz.tier2Results B (normalize_text input) top_k cutoff := by
      rw [IngredientNormalizer.tier2Results]
      exact List.mem_filter.mpr ⟨hp, decide_eq_true hps⟩
    intro hemp
    rw [List.isEmpty_iff] at hemp
    rw [hemp] at hmem
    exact List.not_mem_nil p hmem
  have hmain : nz.normalize_ingredient B input top_k cutoff =
      nz.tier2Results B (normalize_text input) top_k cutoff := by
    simp only [IngredientNormalizer.normalize_ingredient]
    rw [if_neg hnex, if_neg hne]
  constructor
  · rw [hmain]
    rfl
  · rw [hmain, IngredientNormalizer.tier2Results]
    exact le_trans (List.length_filter_le _ _) (List.length_take_le _ _)

/-- C1 counterexample: with `top_k = 1` and the default cutoff 60,
exactly one ranked tier-2 entry ("fish pie", adjusted score 48 ≥ 36)
passes the adjusted cutoff, so the claim demands exactly one returned
entry; but the engine truncates the ranked list to its top entry ("fish
cake", which fails the adjusted cutoff) before filtering, tier 2
produces nothing, and `normalize` returns the empty list. -/
theorem C1_counterexample :
    ((nzFish.tier2Ranked BFish (normalize_text strFish)).filter (fun p =>
        decide (p.2 - nzFish.category_score p.1 * 2.0 ≥ 60 * 0.6))) = [(strFishPie, 50)] ∧
    nzFish.normalize_ingredient BFish strFish 1 60 = [] := by
  have hnt : normalize_text strFish = strFish := by decide
  have h2r : nzFish.tier2Ranked BFish strFish = [(strFishCake, 52), (strFishPie, 50)] := by
    norm_num +decide [IngredientNormalizer.tier2Ranked, IngredientNormalizer.rank_candidates,
      IngredientNormalizer.head_token_candidates, scoreEntry, modifierPenalty,
      List.insertionSort, List.orderedInsert, rankGE, tokens, pySplitAux, isSplitChar,
      pyIsWS, pyToLower, pyStrip, strFish, strFishCake, strFishPie, BFish, nzFish,
      IngredientNormalizer.init, initStep, loadedRow, updateMap,
      IngredientNormalizer.category_score, category_priority, modifier_tokens, strProtein]
  have hcc : nzFish.category_score strFishCake = 10 := by decide
  have hcp : nzFish.category_score strFishPie = 1 := by decide
  constructor
  · rw [hnt, h2r]
    simp only [List.filter_cons, List.filter_nil, hcc, hcp]
    norm_num
  · have hres : nzFish.tier2Results BFish strFish 1 60 = [] := by
      rw [IngredientNormalizer.tier2Results, h2r]
      simp only [List.take_succ_cons, List.take_zero, List.filter_cons, List.filter_nil, hcc]
      norm_num
    have h3 : nzFish.tier3 BFish strFish 1 60 = [] := by decide
    simp only [IngredientNormalizer.normalize_ingredient]
    rw [hnt, if_neg (by decide : ¬ strFish ∈ nzFish.standard_ingredients), hres]
    simpa using h3

/-- C1 witness for the amended claim: with a backend scoring "fish pie"
at 90, the top-1 truncated entry passes the adjusted cutoff and is
returned. -/
theorem C1_witness :
    nzFish.normalize_ingredient BFish2 strFish 1 60 =
      ((nzFish.tier2Ranked BFish2 (normalize_text strFish)).take 1).filter (fun p =>
        decide (p.2 - nzFish.category_score p.1 * 2.0 ≥ 60 * 0.6)) ∧
    (nzFish.normalize_ingredient BFish2 strFish 1 60).length ≤ 1 := by
  have hnt : normalize_text strFish = strFish := by decide
  have h2r : nzFish.tier2Ranked BFish2 strFish = [(strFishPie, 74), (strFishCake, 52)] := by
    norm_num +decide [IngredientNormalizer.tier2Ranked, IngredientNormalizer.rank_candidates,
      IngredientNormalizer.head_token_candidates, scoreEntry, modifierPenalty,
      List.insertionSort, List.orderedInsert, rankGE, tokens, pySplitAux, isSplitChar,
      pyIsWS, pyToLower, pyStrip, strFish, strFishCake, strFishPie, BFish2, nzFish,
      IngredientNormalizer.init, initStep, loadedRow, updateMap,
      IngredientNormalizer.category_score, category_priority, modifier_tokens, strProtein]
  refine C1_tier2_adjusted_cutoff nzFish BFish2 strFish 1 60 (by decide) ?_
  refine ⟨(strFishPie, 74), ?_, ?_⟩
  · rw [hnt, h2r]
    norm_num
  · have hcat : nzFish.category_score strFishPie = 1 := by decide
    rw [hcat]
    norm_num

/-- C3 (amended): on any input whose canonical form is the empty string,
tiers 1 and 2 produce nothing (provided the vocabulary contains no empty
name, which loader-built vocabularies guarantee), so the outcome is the
fuzzy fallback on the empty query: `normalize` returns the empty list
and `bestMatch` returns none exactly when the extraction primitive
returns no candidates for the empty query — in particular when the
vocabulary is empty.  It is not independent of the vocabulary contents:
a backend that returns zero-score candidates for the empty query (as
the bundled libraries do) makes the fallback return them (see the
counterexample). -/
theorem C3_empty_canonical (nz : IngredientNormalizer) (B : Backend) (input : Str)
    (hempty : normalize_text input = [])
    (hno : ([] : Str) ∉ nz.standard_ingredients)
    (hext : ∀ n, B.ext [] nz.standard_ingredients n = []) :
    nz.normalize_ingredient B input 3 60 = [] ∧ nz.best_match B input = none := by
  have key : ∀ (k : ℕ) (q : ℚ), nz.normalize_ingredient B input k q = [] := by
    intro k q
    simp only [IngredientNormalizer.normalize_ingredient]
    rw [hempty, if_neg hno]
    have h2 : nz.tier2Results B ([] : Str) k q = [] := by
      have ht : nz.tier2Ranked B ([] : Str) = [] := rfl
      rw [IngredientNormalizer.tier2Results, ht, List.take_nil, List.filter_nil]
    rw [h2]
    have h3 : nz.tier3 B ([] : Str) k q = [] := by
      rw [IngredientNormalizer.tier3, IngredientNormalizer.tier3Ranked, hext k]
      rfl
    simpa using h3
  refine ⟨key 3 60, ?_⟩
  rw [IngredientNormalizer.best_match, key 5 60]

/-- Evaluation of the engine on the empty input, over the one-entry
vocabulary "tomato" and the zero-scoring backend: nothing clears the
cutoff, and the fuzzy-fallback branch returns the sole entry with
combined score `0*0.8 + 1*2.0 = 2`. -/
theorem normalize_tomato_eval (k : ℕ) (hk : 0 < k) :
    nzTomato.normalize_ingredient Bzero [] k 60 = [(strTomato, 2)] := by
  obtain ⟨m, rfl⟩ : ∃ m, k = m + 1 := ⟨k - 1, by omega⟩
  have hv : nzTomato.standard_ingredients = [strTomato] := by decide
  have hct : nzTomato.category_score strTomato = 1 := by decide
  have hr3 : nzTomato.tier3Ranked Bzero [] (m + 1) = [(strTomato, 2)] := by
    rw [IngredientNormalizer.tier3Ranked]
    have he : Bzero.ext [] nzTomato.standard_ingredients (m + 1) = [(strTomato, 0)] := by
      rw [hv]
      simp only [Bzero, List.take_succ_cons, List.take_nil, List.map_cons, List.map_nil]
    rw [he, IngredientNormalizer.rank_candidates]
    have hs : scoreEntry nzTomato (strTomato, 0) = (strTomato, 2) := by
      rw [scoreEntry, if_neg (by decide)]
      show (strTomato, (0 : ℚ) * 0.8 + nzTomato.category_score strTomato * 2.0) =
        (strTomato, 2)
      rw [hct]
      norm_num
    simp only [List.map_cons, List.map_nil, hs]
    rfl
  have h3 : nzTomato.tier3 Bzero [] (m + 1) 60 = [(strTomato, 2)] := by
    simp only [IngredientNormalizer.tier3, hr3]
    have hfil : ([(strTomato, 2)] : List (Str × ℚ)).filter (fun p =>
        decide (p.2 - nzTomato.category_score p.1 * 2.0 ≥ 60)) = [] := by
      simp only [List.filter_cons, List.filter_nil, hct]
      norm_num
    rw [hfil]
    simp only [List.isEmpty_nil, List.isEmpty_cons, Bool.and_true, Bool.not_false,
      Bool.true_and, if_true, List.length_cons, List.length_nil]
    have hmin : min (0 + 1) (m + 1) = 1 := by omega
    rw [hmin]
    rfl
  simp only [IngredientNormalizer.normalize_ingredient]
  rw [show normalize_text ([] : Str) = [] from rfl, if_neg (by rw [hv]; decide)]
  have h2 : nzTomato.tier2Results Bzero ([] : Str) (m + 1) 60 = [] := by
    have ht : nzTomato.tier2Ranked Bzero ([] : Str) = [] := rfl
    rw [IngredientNormalizer.tier2Results, ht, List.take_nil, List.filter_nil]
  rw [h2]
  simpa using h3

/-- Evaluation of `best_match` in the same situation: the fallback entry
"tomato" is returned, not none. -/
theorem best_match_tomato_eval : nzTomato.best_match Bzero [] = some strTomato := by
  rw [IngredientNormalizer.best_match, normalize_tomato_eval 5 (by norm_num)]

/-- C3 counterexample: the claim fails "regardless of the vocabulary
contents": on the empty input (its own canonical-form-empty example)
over the non-empty vocabulary "tomato", with an admissible backend whose
extraction behaves like the bundled libraries on an empty query (all
candidates score 0 and are still returned), `normalize` returns a
non-empty fallback list and `bestMatch` returns "tomato", not none. -/
theorem C3_counterexample :
    ExtractContract Bzero ∧
    normalize_text ([] : Str) = [] ∧
    nzTomato.normalize_ingredient Bzero [] 3 60 = [(strTomato, 2)] ∧
    nzTomato.best_match Bzero [] = some strTomato :=
  ⟨Bzero_contract, rfl, normalize_tomato_eval 3 (by norm_num), best_match_tomato_eval⟩

/-- C3 witness for the amended claim: over the same vocabulary, a
backend whose extraction yields nothing produces the empty result and
none. -/
theorem C3_witness :
    nzTomato.normalize_ingredient Bnil [] 3 60 = [] ∧ nzTomato.best_match Bnil [] = none :=
  C3_empty_canonical nzTomato Bnil [] rfl (by decide) (fun _ => rfl)

/-- C6: in tier 3, if no ranked entry passes the unadjusted cutoff but
the ranked set is non-empty, the engine returns the first
`min(|ranked|, topK)` ranked entries anyway; tier 3 returns the empty
list exactly when its ranked set is empty; hence `normalize` returns the
empty list only when the fuzzy fallback produced no ranked candidate
(for positive `topK`). -/
theorem C6_fuzzy_fallback (nz : IngredientNormalizer) (B : Backend) (input : Str)
    (top_k : ℕ) (cutoff : ℚ) (htop : 0 < top_k) :
    ((∀ p ∈ nz.tier3Ranked B (normalize_text input) top_k,
        p.2 - nz.category_score p.1 * 2.0 < cutoff) →
      nz.tier3 B (normalize_text input) top_k cutoff =
        (nz.tier3Ranked B (normalize_text input) top_k).take
          (min (nz.tier3Ranked B (normalize_text input) top_k).length top_k)) ∧
    (nz.tier3 B (normalize_text input) top_k cutoff = [] ↔
      nz.tier3Ranked B (normalize_text input) top_k = []) ∧
    (nz.normalize_ingredient B input top_k cutoff = [] →
      nz.tier3Ranked B (normalize_text input) top_k = []) := by
  set R := nz.tier3Ranked B (normalize_text input) top_k with hR
  have hiff : nz.tier3 B (normalize_text input) top_k cutoff = [] ↔ R = [] := by
    constructor
    · intro h3
      by_contra hne
      have hRe : R.isEmpty = false := by
        cases he : R.isEmpty
        · rfl
        · exact absurd (List.isEmpty_iff.mp he) hne
      simp only [IngredientNormalizer.tier3, ← hR] at h3
      by_cases hf : R.filter (fun p =>
          decide (p.2 - nz.category_score p.1 * 2.0 ≥ cutoff)) = []
      · rw [hf] at h3
        simp only [List.isEmpty_nil, hRe, Bool.not_false, Bool.and_self, if_true] at h3
        have h1 : 0 < R.length := List.length_pos.mpr hne
        have hlen := congrArg List.length h3
        rw [List.length_take] at hlen
        simp only [List.length_nil] at hlen
        omega
      · have hfe : (R.filter (fun p =>
            decide (p.2 - nz.category_score p.1 * 2.0 ≥ cutoff))).isEmpty = false := by
          cases he : (R.filter _).isEmpty
          · rfl
          · exact absurd (List.isEmpty_iff.mp he) hf
        rw [hfe] at h3
        simp only [Bool.false_and, if_false] at h3
        exact hf h3
    · intro hRnil
      simp only [IngredientNormalizer.tier3, ← hR, hRnil]
      rfl
  refine ⟨?_, hiff, ?_⟩
  · intro hall
    have hfil : R.filter (fun p =>
        decide (p.2 - nz.category_score p.1 * 2.0 ≥ cutoff)) = [] := by
      apply List.filter_eq_nil_iff.mpr
      intro p hp
      simp only [decide_eq_true_eq]
      exact not_le.mpr (hall p hp)
    by_cases hne : R = []
    · simp only [IngredientNormalizer.tier3, ← hR, hne]
      simp [List.take_nil]
    · have hRe : R.isEmpty = false := by
        cases he : R.isEmpty
        · rfl
        · exact absurd (List.isEmpty_iff.mp he) hne
      simp only [IngredientNormalizer.tier3, ← hR, hfil, List.isEmpty_nil, hRe,
        Bool.not_false, Bool.and_self, if_true]
  · intro hnorm
    simp only [IngredientNormalizer.normalize_ingredient] at hnorm
    by_cases h1 : normalize_text input ∈ nz.standard_ingredients
    · rw [if_pos h1] at hnorm
      exact absurd hnorm (List.cons_ne_nil _ _)
    · rw [if_neg h1] at hnorm
      by_cases h2 : (nz.tier2Results B (normalize_text input) top_k cutoff).isEmpty = true
      · rw [if_pos h2] at hnorm
        exact hiff.mp hnorm
      · rw [if_neg h2] at hnorm
        exact absurd (hnorm ▸ rfl) h2

/-- C6 witness: the fallback equivalence instantiated at the concrete
tomato engine with the zero-scoring backend on the empty input. -/
theorem C6_witness :
    nzTomato.tier3 Bzero (normalize_text []) 3 60 = [] ↔
      nzTomato.tier3Ranked Bzero (normalize_text []) 3 = [] :=
  (C6_fuzzy_fallback nzTomato Bzero [] 3 60 (by norm_num)).2.1

/-- C7 (amended): constructing the engine from a vocabulary source with
no usable rows does not fail — `__init__` has no emptiness check — and
yields a working engine instance with an empty vocabulary, on which
every query returns the empty list and `bestMatch` returns none. -/
theorem C7_empty_source (rows : List (List Str)) (B : Backend) (input : Str)
    (top_k : ℕ) (cutoff : ℚ)
    (hrows : ∀ row ∈ rows, loadedRow row = none)
    (hB : ExtractContract B) :
    (IngredientNormalizer.init rows).standard_ingredients = [] ∧
    (IngredientNormalizer.init rows).normalize_ingredient B input top_k cutoff = [] ∧
    (IngredientNormalizer.init rows).best_match B input = none := by
  have hinit : IngredientNormalizer.init rows = ⟨[], fun _ => none⟩ := by
    rw [IngredientNormalizer.init]
    exact foldl_initStep_all_none rows hrows _
  have key : ∀ (k : ℕ) (q : ℚ),
      (IngredientNormalizer.init rows).normalize_ingredient B input k q = [] := by
    intro k q
    rw [hinit]
    simp only [IngredientNormalizer.normalize_ingredient]
    rw [if_neg (List.not_mem_nil _)]
    have h2 : IngredientNormalizer.tier2Results ⟨[], fun _ => none⟩ B
        (normalize_text input) k q = [] := by
      rw [IngredientNormalizer.tier2Results]
      have ht : IngredientNormalizer.tier2Ranked ⟨[], fun _ => none⟩ B
          (normalize_text input) = [] := by
        rw [IngredientNormalizer.tier2Ranked]
        cases htok : tokens (normalize_text input) with
        | nil => rfl
        | cons t ts =>
          simp only [IngredientNormalizer.head_token_candidates, List.filter_nil,
            List.map_nil]
          rfl
      rw [ht, List.take_nil, List.filter_nil]
    rw [h2]
    have h3 : IngredientNormalizer.tier3 ⟨[], fun _ => none⟩ B
        (normalize_text input) k q = [] := by
      rw [IngredientNormalizer.tier3, IngredientNormalizer.tier3Ranked]
      rw [show (⟨[], fun _ => none⟩ : IngredientNormalizer).standard_ingredients = []
        from rfl, ext_nil_of_contract hB]
      rfl
    simpa using h3
  refine ⟨by rw [hinit], key top_k cutoff, ?_⟩
  rw [IngredientNormalizer.best_match, key 5 60]

/-- C7 counterexample: the engine is constructed from an entirely empty
source without any error, as an instance with an empty vocabulary that
answers queries — the claimed construction-time failure does not exist
in the code. -/
theorem C7_counterexample :
    (IngredientNormalizer.init rowsEmpty).standard_ingredients = [] ∧
    (IngredientNormalizer.init rowsEmpty).best_match Bnil ['x'] = none := by
  constructor
  · decide
  · decide

/-- C7 witness for the amended claim, at the concrete empty source. -/
theorem C7_witness :
    (IngredientNormalizer.init rowsEmpty).standard_ingredients = [] ∧
    (IngredientNormalizer.init rowsEmpty).normalize_ingredient Bnil ['x'] 3 60 = [] ∧
    (IngredientNormalizer.init rowsEmpty).best_match Bnil ['x'] = none :=
  C7_empty_source rowsEmpty Bnil ['x'] 3 60 (by decide) Bnil_contract

/-- C8 (amended): construction does not reject duplicate canonical
names and does not fail; each usable row appends its name to the
ingredient list (so a duplicated name appears once per occurrence), and
the category mapping silently keeps the category of the last row
carrying the name (Python dictionary overwrite, last-wins). -/
theorem C8_duplicate_last_wins (rows : List (List Str)) (name : Str) :
    (IngredientNormalizer.init rows).standard_ingredients =
      (rows.filterMap loadedRow).map Prod.fst ∧
    (IngredientNormalizer.init rows).ingredient_to_category name =
      lastCategoryIn rows name := by
  constructor
  · rw [IngredientNormalizer.init, foldl_initStep_ingredients]
    simp
  · rw [IngredientNormalizer.init, foldl_initStep_category]
    cases lastCategoryIn rows name <;> rfl

/-- C8 counterexample: a source containing the name "a" twice (with
categories "x" then "y") is loaded without any construction failure;
the list keeps both occurrences and the category mapping has been
silently overwritten to the later row's "y". -/
theorem C8_counterexample :
    (IngredientNormalizer.init rowsDup).standard_ingredients = [['a'], ['a']] ∧
    (IngredientNormalizer.init rowsDup).ingredient_to_category ['a'] = some ['y'] := by
  constructor
  · decide
  · decide

/-- C10: assuming the extraction primitive only returns candidates drawn
from the collection it is given, every name in the output of
`normalize` (whatever tier produced it) and every name returned by
`best_match` is an entry of the loaded vocabulary. -/
theorem C10_closed_vocabulary (nz : IngredientNormalizer) (B : Backend) (input : Str)
    (top_k : ℕ) (cutoff : ℚ) (hB : ExtractContract B) :
    (∀ p ∈ nz.normalize_ingredient B input top_k cutoff,
        p.1 ∈ nz.standard_ingredients) ∧
    (∀ name, nz.best_match B input = some name → name ∈ nz.standard_ingredients) := by
  have key : ∀ (k : ℕ) (q : ℚ) (p : Str × ℚ), p ∈ nz.normalize_ingredient B input k q →
      p.1 ∈ nz.standard_ingredients := by
    intro k q p hp
    simp only [IngredientNormalizer.normalize_ingredient] at hp
    by_cases h1 : normalize_text input ∈ nz.standard_ingredients
    · rw [if_pos h1] at hp
      rw [List.mem_singleton] at hp
      subst hp
      exact h1
    · rw [if_neg h1] at hp
      by_cases h2 : (nz.tier2Results B (normalize_text input) k q).isEmpty = true
      · rw [if_pos h2] at hp
        have hmem : p ∈ nz.tier3Ranked B (normalize_text input) k := by
          simp only [IngredientNormalizer.tier3] at hp
          by_cases hc : (((nz.tier3Ranked B (normalize_text input) k).filter
              (fun r => decide (r.2 - nz.category_score r.1 * 2.0 ≥ q))).isEmpty &&
              !(nz.tier3Ranked B (normalize_text input) k).isEmpty) = true
          · rw [if_pos hc] at hp
            exact List.mem_of_mem_take hp
          · rw [if_neg hc] at hp
            exact (List.mem_filter.mp hp).1
        rw [IngredientNormalizer.tier3Ranked] at hmem
        obtain ⟨r, hrmem, hr1⟩ := exists_cand_of_mem_rank hmem
        rw [← hr1]
        exact hB _ _ _ r hrmem
      · rw [if_neg h2] at hp
        rw [IngredientNormalizer.tier2Results] at hp
        have hp2 : p ∈ nz.tier2Ranked B (normalize_text input) :=
          List.mem_of_mem_take (List.mem_filter.mp hp).1
        rw [IngredientNormalizer.tier2Ranked] at hp2
        cases htok : tokens (normalize_text input) with
        | nil =>
          rw [htok] at hp2
          exact absurd hp2 (List.not_mem_nil p)
        | cons t ts =>
          rw [htok] at hp2
          obtain ⟨r, hrmem, hr1⟩ := exists_cand_of_mem_rank hp2
          rcases List.mem_map.mp hrmem with ⟨c, hc, rfl⟩
          rw [← hr1]
          exact List.mem_of_mem_filter hc
  refine ⟨fun p hp => key top_k cutoff p hp, ?_⟩
  intro name hbm
  rw [IngredientNormalizer.best_match] at hbm
  cases hn : nz.normalize_ingredient B input 5 60 with
  | nil =>
    rw [hn] at hbm
    exact absurd hbm (by simp)
  | cons p t =>
    rw [hn] at hbm
    have hbm2 : p.1 = name := Option.some.inj (hbm : some p.1 = some name)
    rw [← hbm2]
    exact key 5 60 p (hn ▸ List.mem_cons_self p t)

/-- C10 witness: the concrete engine's `best_match` output "tomato" is a
vocabulary entry. -/
theorem C10_witness : strTomato ∈ nzTomato.standard_ingredients :=
  (C10_closed_vocabulary nzTomato Bzero [] 5 60 Bzero_contract).2
    strTomato best_match_tomato_eval
